import Mathlib

/-
Shallow embedding of the fasttpl template engine (github.com/oarkflow/fasttpl).

Source of the embedding:
  - accessor.go   : step / accessor resolution (fieldStep, indexStep, keyStep, boundAcc)
  - utils.go      : fastTrim, htmlEscapeFast, compileAccessor, compilePath, scanDotted,
                    splitFieldsFast, splitArgs, unquote, toStringFast, truthyFast
  - parser.go     : parser.parse, parseTag, parseUntilEnd, parseUntilElseOrEnd
  - template.go   : Template, RegisterPartial, Render (context reset)
  - README.md (embedded source listing) : the node render methods
    (textNode, printNode, ifNode, rangeNode, letNode, withNode, includeNode, seqNode)

Modelling decisions (each noted again at the definition it concerns):
  - Go `any` data values are modelled by the inductive `Val` covering nil, bool,
    string, int/int64 (as Int), []any, map[string]any and flat structs ("records").
    float64, []byte, pointers, typed nils, embedded struct fields and non-string-keyed
    maps are not modelled; no claim depends on them.
  - Go maps are modelled as association lists with map-like lookup/insert/delete.
  - The output writer is a string accumulator (strings.Builder never fails), so a
    render result is (final context, text written so far, optional error).
  - Render recursion is bounded by a fuel parameter decremented at every nesting
    level; the Go code has no such bound (an include cycle overflows the stack).
    Fuel exhaustion is the distinguished error `RErr.outOfFuel`.
  - The parser is modelled with the default delimiters "{{" / "}}" fixed
    (Compile's defaults); WithDelims is not modelled.
  - Bytes vs chars: Go scans bytes, the model scans chars; they agree on ASCII
    sources and ASCII data, which all claims use.
-/

namespace Fasttpl

/-- Runtime data values: the subset of Go `any` the engine manipulates.
`vlist` models a non-nil `[]any`, `vmap` a non-nil `map[string]any`,
`vrec` a flat struct value (field name, field value). -/
inductive Val : Type where
  | vnull : Val
  | vbool : Bool → Val
  | vint : Int → Val
  | vstr : String → Val
  | vlist : List Val → Val
  | vmap : List (String × Val) → Val
  | vrec : List (String × Val) → Val

/-- reflect.Value.IsZero for a struct FIELD of the modelled Go types:
zero value is nil / false / 0 / "" ; any non-nil slice or map is non-zero;
a nested struct is zero iff all its fields are. -/
def goFieldIsZero : Val → Bool
  | .vnull => true
  | .vbool b => !b
  | .vint n => n == 0
  | .vstr s => s == ""
  | .vlist _ => false
  | .vmap _ => false
  | .vrec fs => goRecIsZero fs
where
  goRecIsZero : List (String × Val) → Bool
  | [] => true
  | f :: fs => goFieldIsZero f.2 && goRecIsZero fs

/-- utils.go truthyFast. nil is falsy; bool/string/int/int64 have dedicated
cases; everything else falls back to `!reflect.ValueOf(v).IsZero()`:
a non-nil slice or map (of any length) is never the zero value, so it is truthy;
a struct is truthy unless every field holds its zero value.
(The Go float64 and []byte cases concern values outside the modelled `Val`.) -/
def truthyFast : Val → Bool
  | .vnull => false
  | .vbool x => x
  | .vstr x => x != ""
  | .vint x => x != 0
  | .vlist _ => true          -- default branch: IsZero of a non-nil slice is false
  | .vmap _ => true           -- default branch: IsZero of a non-nil map is false
  | .vrec fs => !goFieldIsZero.goRecIsZero fs

/- fmt "%v" formatting, used by toStringFast's default branch; approximate:
lists as "[a b]", maps as "map[k:v]", structs as "{a b}". Go's fmt sorts
map keys before printing; the model keeps association order (Go map order is
incidental anyway, and no claim exercises this branch). -/
mutual
def goFmt : Val → String
  | .vnull => "<nil>"
  | .vbool b => if b then "true" else "false"
  | .vint n => toString n
  | .vstr s => s
  | .vlist xs => "[" ++ goFmtSeq xs ++ "]"
  | .vmap m => "map[" ++ goFmtMap m ++ "]"
  | .vrec fs => "\x7b" ++ goFmtRec fs ++ "\x7d"

def goFmtSeq : List Val → String
  | [] => ""
  | [v] => goFmt v
  | v :: vs => goFmt v ++ " " ++ goFmtSeq vs

def goFmtMap : List (String × Val) → String
  | [] => ""
  | [p] => p.1 ++ ":" ++ goFmt p.2
  | p :: ps => p.1 ++ ":" ++ goFmt p.2 ++ " " ++ goFmtMap ps

def goFmtRec : List (String × Val) → String
  | [] => ""
  | [p] => goFmt p.2
  | p :: ps => goFmt p.2 ++ " " ++ goFmtRec ps
end

/-- utils.go toStringFast: strings pass through, ints via strconv (decimal),
bools as "true"/"false"; other values fall back to fmt "%v".
(The []byte, float64 and fmt.Stringer cases concern unmodelled values.) -/
def toStringFast : Val → String
  | .vstr x => x
  | .vint x => toString x
  | .vbool x => if x then "true" else "false"
  | v => goFmt v

/-- The five escaped bytes of utils.go htmlEscapeFast. -/
def isEscCh (c : Char) : Bool :=
  c == '&' || c == '<' || c == '>' || c == '"' || c == Char.ofNat 39

/-- Per-character replacement of htmlEscapeFast's switch. -/
def escChar (c : Char) : List Char :=
  if c == '&' then "&amp;".toList
  else if c == '<' then "&lt;".toList
  else if c == '>' then "&gt;".toList
  else if c == '"' then "&quot;".toList
  else if c == Char.ofNat 39 then "&#39;".toList
  else [c]

/-- utils.go htmlEscapeFast: a quick scan decides whether any of the five
bytes occurs; if not the input is returned unchanged, otherwise each
character is rewritten through the switch. -/
def htmlEscapeFast (s : String) : String :=
  if s.toList.any isEscCh then
    ((s.toList.map escChar).flatten).asString
  else s

/-- strings.EqualFold restricted to ASCII (Go folds full Unicode; struct field
names and template identifiers in the claims are ASCII). -/
def eqFold (a b : String) : Bool :=
  a.toList.map lowerA == b.toList.map lowerA
where
  lowerA (c : Char) : Char :=
    if 'A' ≤ c && c ≤ 'Z' then Char.ofNat (c.toNat + 32) else c

/-! ### Go maps as association lists -/

/-- `m[k]` with presence flag folded into Option. -/
def lget (m : List (String × Val)) (k : String) : Option Val :=
  match m with
  | [] => none
  | p :: ps => if p.1 == k then some p.2 else lget ps k

/-- `delete(m, k)`. -/
def lerase (m : List (String × Val)) (k : String) : List (String × Val) :=
  m.filter (fun p => !(p.1 == k))

/-- `m[k] = v`. -/
def linsert (m : List (String × Val)) (k : String) (v : Val) : List (String × Val) :=
  (k, v) :: lerase m k

theorem lget_linsert_self (m : List (String × Val)) (k : String) (v : Val) :
    lget (linsert m k v) k = some v := by
  simp [linsert, lget]

theorem lget_lerase_self (m : List (String × Val)) (k : String) :
    lget (lerase m k) k = none := by
  induction m with
  | nil => rfl
  | cons p ps ih =>
    simp only [lerase, List.filter_cons] at ih ⊢
    by_cases h : p.1 = k
    · simp [h, ih]
    · have hb : (p.1 == k) = false := by simp [h]
      simp [hb, lget, ih]

/-! ### Accessor steps (accessor.go) -/

/-- One hop of a compiled path: localStep / fieldStep / indexStep / keyStep.
(rootStep and fastFieldStep exist in the source but are never produced by the
accessor compiler.) The render-time struct-offset cache of fieldStep
(structType/fieldIndex) is only populated by PrecomputeFieldAccess, never by
Compile, so the model implements the uncached fallback path. -/
inductive Step : Type where
  | slocal : String → Step
  | sfield : String → Step
  | sindex : Int → Step
  | skey : String → Step

/-- fieldStep.next on a struct value: reflect's FieldByNameFunc with the
predicate `n == s.name || strings.EqualFold(n, s.name)`. FieldByNameFunc
returns the unique field satisfying the predicate and no match when several
fields satisfy it (they cancel each other out). Embedded structs are not
modelled (flat records only). -/
def recField (name : String) (fs : List (String × Val)) : Option Val :=
  match fs.filter (fun p => p.1 == name || eqFold p.1 name) with
  | [p] => some p.2
  | _ => none

/-- accessor.go fieldStep.next: struct values go through FieldByNameFunc
(exact or case-insensitive match); map[string]any values use the exact-key
fast path `m[s.name]`; every other kind fails. The Pointer case (deref) is
not modelled; the non-string-keyed map fallback is outside the value model. -/
def fieldNext (name : String) : Val → Option Val
  | .vrec fs => recField name fs
  | .vmap m => lget m name
  | _ => none

/-- accessor.go indexStep.next: slices/arrays with a bounds check
(negative or past-the-end fails); every other kind fails. -/
def indexNext (idx : Int) : Val → Option Val
  | .vlist xs =>
    if idx < 0 || idx ≥ xs.length then none
    else xs.get? idx.toNat
  | _ => none

/-- accessor.go keyStep.next: exact map lookup via MapIndex; every other
kind fails. -/
def keyNext (k : String) : Val → Option Val
  | .vmap m => lget m k
  | _ => none

/-- step.next dispatch. localStep.next is the identity (it only has special
meaning as the first step of boundAcc.get). -/
def stepNext : Step → Val → Option Val
  | .slocal _, v => some v
  | .sfield n, v => fieldNext n v
  | .sindex i, v => indexNext i v
  | .skey k, v => keyNext k v

/-! ### Render context and AST (template.go, README renderer, parser.go) -/

/-- A filter: func(string, []string) (string, error). -/
abbrev FilterFn := String → List String → Except String String

/-- One pipe segment: filter name plus literal arguments. -/
structure Pipe : Type where
  name : String
  args : List String

/-- The AST node set. Constructor names follow the Go node type names.
`ifNode`'s else branch is optional, mirroring the nil check in its render
method (the parser always supplies one, possibly an empty sequence).
`includeNode` carries the partial's name; the partial itself lives in the
render context's parts map as its root node. -/
inductive Node : Type where
  | textNode : String → Node
  | printNode : List Step → Bool → List Pipe → Node
  | ifNode : List Step → Node → Option Node → Node
  | rangeNode : List Step → String → Node → Node
  | letNode : String → List Step → Node
  | withNode : List Step → Node → Node
  | includeNode : String → Node
  | seqNode : List Node → Node

/-- renderCtx: current data scope, local bindings, the owning template's
partial map (include renders a partial's root with the *current* context, so
only root nodes are stored) and filter registry. -/
structure Ctx : Type where
  data : Val
  locals : List (String × Val)
  parts : List (String × Node)
  filters : List (String × FilterFn)

/-- Render-time errors. Go uses plain error values; the constructors map to
`unknown filter %q`, the filter's own error, and `include: partial %q not
found`. `outOfFuel` marks exhaustion of the model's recursion bound, which
has no Go counterpart (unbounded include recursion overflows the stack). -/
inductive RErr : Type where
  | unknownFilter : String → RErr
  | filterFailed : String → RErr
  | partNotFound : String → RErr
  | outOfFuel : RErr
  deriving DecidableEq

/-- A render step's outcome: the context as the node left it, everything
written to the sink so far (writes before an error stay written), and the
error if any. -/
structure RRes : Type where
  ctx : Ctx
  out : String
  err : Option RErr

/-- Filter registry lookup (`ctx.filters[p.name]`). -/
def lookupF (fs : List (String × FilterFn)) (k : String) : Option FilterFn :=
  match fs with
  | [] => none
  | p :: ps => if p.1 == k then some p.2 else lookupF ps k

/-- Partial map lookup (`ctx.parts[n.name]`). -/
def lookupP (ps : List (String × Node)) (k : String) : Option Node :=
  match ps with
  | [] => none
  | p :: qs => if p.1 == k then some p.2 else lookupP qs k

/-- boundAcc.get: zero steps denote the whole data scope; a leading localStep
switches resolution to the local bindings (absent name fails); otherwise the
steps are walked from the ambient data scope, failing at the first
unsatisfied step. -/
def accGet (steps : List Step) (ctx : Ctx) : Option Val :=
  match steps with
  | [] => some ctx.data
  | .slocal nm :: rest =>
    match lget ctx.locals nm with
    | none => none
    | some v => walk v rest
  | ss => walk ctx.data ss
where
  walk : Val → List Step → Option Val
  | v, [] => some v
  | v, s :: ss =>
    match stepNext s v with
    | none => none
    | some v2 => walk v2 ss

/-- printNode's pipe loop: apply each pipe left to right; a name missing
from the registry aborts with `unknown filter`, a filter error aborts with
that error. -/
def applyPipes (filters : List (String × FilterFn)) : String → List Pipe → Except RErr String
  | s, [] => .ok s
  | s, p :: ps =>
    match lookupF filters p.name with
    | none => .error (.unknownFilter p.name)
    | some f =>
      match f s p.args with
      | .error e => .error (.filterFailed e)
      | .ok s2 => applyPipes filters s2 ps

/-- rangeNode's dispatch on the iterable's kind: slices iterate elements in
order, maps iterate values (Go map order is unspecified; the model uses
association order — no claim depends on it), anything else yields zero
iterations. `none` is the nil obtained from a failed accessor. -/
def iterElems : Option Val → List Val
  | some (.vlist xs) => xs
  | some (.vmap m) => m.map (·.2)
  | _ => []

/-- rangeNode's binding restoration: re-insert the pre-loop value if the
loop variable was bound before, else delete it. -/
def restoreL (ls : List (String × Val)) (k : String) : Option Val → List (String × Val)
  | some v => linsert ls k v
  | none => lerase ls k

/-- The error branch inside rangeNode's loop: if the body's render r1
errored, restore the loop variable's pre-loop binding before propagating,
else pass the body's result through. -/
def rangeStepFin (item : String) (orig : Option Val) (r1 : RRes) : RRes :=
  match r1.err with
  | some er => ⟨⟨r1.ctx.data, restoreL r1.ctx.locals item orig,
                 r1.ctx.parts, r1.ctx.filters⟩, r1.out, some er⟩
  | none => r1

/-- One iteration of rangeNode's loop (g is the body's render at the current
fuel): skip once an error occurred, else bind the element and render the
body. -/
def rangeStepFn (g : Ctx → String → RRes) (item : String) (orig : Option Val)
    (acc : RRes) (e : Val) : RRes :=
  match acc.err with
  | some _ => acc
  | none =>
    rangeStepFin item orig
      (g ⟨acc.ctx.data, linsert acc.ctx.locals item e,
          acc.ctx.parts, acc.ctx.filters⟩ acc.out)

/-- One step of seqNode's loop: render the next child unless a previous one
errored. -/
def seqStepFn (g : Node → Ctx → String → RRes) (acc : RRes) (c : Node) : RRes :=
  match acc.err with
  | some _ => acc
  | none => g c acc.ctx acc.out

/-- The tree-walking renderer. One recursion level of fuel is spent per
nesting step; the Go code is unbounded (see RErr.outOfFuel). Each node case
mirrors the corresponding render method:
  - textNode writes its literal;
  - printNode resolves (absent writes nothing), stringifies, pipes, then
    writes raw or HTML-escaped;
  - ifNode tests truthyFast on the resolved value (nil on failure) and picks
    the branch;
  - rangeNode saves the loop variable's prior binding, binds each element
    and renders the body, restoring the prior binding at the first body
    error or after the last iteration;
  - letNode binds the resolved value (nil on failure);
  - withNode swaps the data scope for the body and restores it
    unconditionally (the Go defer);
  - includeNode fails if the name is unregistered, else renders the
    partial's root with the current context;
  - seqNode renders children in order, stopping at the first error. -/
def render : Nat → Node → Ctx → String → RRes
  | 0, _, ctx, out => ⟨ctx, out, some .outOfFuel⟩
  | n + 1, nd, ctx, out =>
    match nd with
    | .textNode s => ⟨ctx, out ++ s, none⟩
    | .printNode acc raw pipes =>
      match accGet acc ctx with
      | none => ⟨ctx, out, none⟩
      | some v =>
        match applyPipes ctx.filters (toStringFast v) pipes with
        | .error e => ⟨ctx, out, some e⟩
        | .ok s =>
          if raw then ⟨ctx, out ++ s, none⟩
          else ⟨ctx, out ++ htmlEscapeFast s, none⟩
    | .ifNode cond t e =>
      if truthyFast ((accGet cond ctx).getD .vnull) then render n t ctx out
      else
        match e with
        | some en => render n en ctx out
        | none => ⟨ctx, out, none⟩
    | .rangeNode it item body =>
      let orig := lget ctx.locals item
      let r := (iterElems (accGet it ctx)).foldl
        (rangeStepFn (render n body) item orig) ⟨ctx, out, none⟩
      match r.err with
      | some _ => r
      | none => ⟨⟨r.ctx.data, restoreL r.ctx.locals item orig,
                  r.ctx.parts, r.ctx.filters⟩, r.out, none⟩
    | .letNode name acc =>
      ⟨⟨ctx.data, linsert ctx.locals name ((accGet acc ctx).getD .vnull),
        ctx.parts, ctx.filters⟩, out, none⟩
    | .withNode acc body =>
      match accGet acc ctx with
      | none => ⟨ctx, out, none⟩
      | some v =>
        let r := render n body ⟨v, ctx.locals, ctx.parts, ctx.filters⟩ out
        ⟨⟨ctx.data, r.ctx.locals, r.ctx.parts, r.ctx.filters⟩, r.out, r.err⟩
    | .includeNode name =>
      match lookupP ctx.parts name with
      | none => ⟨ctx, out, some (.partNotFound name)⟩
      | some root => render n root ctx out
    | .seqNode cs =>
      cs.foldl (seqStepFn (render n)) ⟨ctx, out, none⟩

/-- Template.Render: the pooled context is reset — data bound, locals
cleared, the template's parts and filters rebound — then the root renders
into the writer. Result: (text written, error). -/
def renderTemplate (fuel : Nat) (root : Node) (parts : List (String × Node))
    (filters : List (String × FilterFn)) (data : Val) : String × Option RErr :=
  let r := render fuel root ⟨data, [], parts, filters⟩ ""
  (r.out, r.err)

/-! ### Scanner / parser (utils.go, parser.go)

The parser is modelled over `List Char` (Go scans bytes; they coincide on
the ASCII sources all claims use), passing the remaining input suffix
instead of an index, and bounded by fuel where Go uses loops. -/

/-- The six whitespace bytes of utils.go fastTrim. -/
def isWS (c : Char) : Bool :=
  c == ' ' || c == '\t' || c == '\n' || c == '\r' ||
  c == Char.ofNat 11 || c == Char.ofNat 12

/-- utils.go fastTrim: strip leading and trailing whitespace. -/
def fastTrimL (s : List Char) : List Char :=
  ((s.dropWhile isWS).reverse.dropWhile isWS).reverse

/-- bytes-level prefix test (mirrors how strings.Index matches at an offset). -/
def startsWith : List Char → List Char → Bool
  | _, [] => true
  | [], _ :: _ => false
  | a :: as2, b :: bs => a == b && startsWith as2 bs

/-- strings.Index: least offset at which `pat` occurs in `hay`, if any. -/
def findSub (hay pat : List Char) : Option Nat :=
  if startsWith hay pat then some 0
  else
    match hay with
    | [] => none
    | _ :: t => (findSub t pat).map (· + 1)

/-- The default delimiters `{{` and `}}` fixed by Compile (custom delimiters
via WithDelims are not modelled). -/
def LD : List Char := [Char.ofNat 123, Char.ofNat 123]

def RD : List Char := [Char.ofNat 125, Char.ofNat 125]

/-- strings.TrimPrefix. -/
def stripLead (l p : List Char) : List Char :=
  if startsWith l p then l.drop p.length else l

/-- Quote-state update of utils.go splitFieldsFast: an unquoted quote char
opens a quote, the matching char closes it; quote chars stay in the field. -/
def toggleQ (q : Option Char) (c : Char) : Option Char :=
  match q with
  | none => if c == '"' || c == Char.ofNat 39 then some c else none
  | some qc => if c == qc then none else some qc

/-- Append a finished field: trimmed, dropped when empty. -/
def pushFld (cur : List Char) (acc : List (List Char)) : List (List Char) :=
  let f := fastTrimL cur
  if f.isEmpty then acc else acc ++ [f]

/-- utils.go splitFieldsFast: split on unquoted space/tab/newline, trimming
each field and dropping empties. -/
def splitFieldsAux : List Char → List Char → Option Char → List (List Char) → List (List Char)
  | [], cur, _, acc => pushFld cur acc
  | c :: rest, cur, q, acc =>
    if q.isNone && (c == ' ' || c == '\t' || c == '\n') then
      splitFieldsAux rest [] q (pushFld cur acc)
    else
      splitFieldsAux rest (cur ++ [c]) (toggleQ q c) acc

def splitFields (s : List Char) : List (List Char) :=
  splitFieldsAux s [] none []

/-- utils.go unquote: strip one layer of matching single or double quotes. -/
def unquoteL (s : List Char) : List Char :=
  match s with
  | c :: rest =>
    if (c == '"' || c == Char.ofNat 39) && !rest.isEmpty && rest.getLast? == some c then
      rest.dropLast
    else s
  | [] => s

/-- strings.Split on a single separator char (always at least one part). -/
def splitOnCh (sep : Char) : List Char → List (List Char)
  | [] => [[]]
  | c :: rest =>
    let r := splitOnCh sep rest
    if c == sep then [] :: r
    else
      match r with
      | h :: t => (c :: h) :: t
      | [] => [[c]]

def isAlphaNumCh (c : Char) : Bool :=
  ('a' ≤ c && c ≤ 'z') || ('A' ≤ c && c ≤ 'Z') || ('0' ≤ c && c ≤ '9')

def isDigitCh (c : Char) : Bool := '0' ≤ c && c ≤ '9'

/-- Decimal digits to a number. Divergence from source: strconv.Atoi errors
on an int64 overflow (19+ digit literal) and the ignored error leaves idx 0;
the model keeps the exact value. No claim involves such literals. -/
def digitsToNat (ds : List Char) : Nat :=
  ds.foldl (fun n c => n * 10 + (c.toNat - 48)) 0

/-- The bracket-scanning loop inside utils.go scanDotted: consume
`["key"]` / `['key']` / `[123]` segments, stopping at `.` (rest is the
trimmed remainder), at an unrecognized char (rest is the trimmed suffix from
it) or at the end (rest empty). Each iteration consumes at least one char,
so fuel = input length suffices; the 0 case is unreachable from the
callsite. -/
def scanIdx : Nat → List Char → List Step → List Char × List Step
  | 0, s, acc => (fastTrimL s, acc)
  | _ + 1, [], acc => ([], acc)
  | f + 1, c0 :: t0, acc =>
    if c0 == '.' then (fastTrimL t0, acc)
    else if c0 == '[' then
      match t0 with
      | q :: t2 =>
        if q == '"' || q == Char.ofNat 39 then
          let key := t2.takeWhile (fun c => c != q)
          let t4 := (t2.drop key.length).drop 1
          let t5 := match t4 with
                    | ']' :: u => u
                    | u2 => u2
          scanIdx f t5 (acc ++ [Step.skey key.asString])
        else
          let ds := t0.takeWhile isDigitCh
          let t2b := t0.drop ds.length
          let acc2 := if ds.isEmpty then acc
                      else acc ++ [Step.sindex (Int.ofNat (digitsToNat ds))]
          let t3 := match t2b with
                    | ']' :: u => u
                    | u2 => u2
          scanIdx f t3 acc2
      | [] => ([], acc)
    else (fastTrimL (c0 :: t0), acc)

/-- utils.go scanDotted: trim, take the identifier (alphanumeric or `_`),
then scan bracket segments; returns (ident, rest, idxSteps). -/
def scanDotted (s : List Char) : List Char × List Char × List Step :=
  let t := fastTrimL s
  let ident := t.takeWhile (fun c => isAlphaNumCh c || c == '_')
  let rest0 := t.drop ident.length
  let (rest, steps) := scanIdx (rest0.length + 1) rest0 []
  (ident, rest, steps)

/-- The `for rest != ""` loop of utils.go compilePath. When scanDotted makes
no progress (identifier empty and the next char opens no segment) the Go
loop never terminates — modelled as `none` on fuel exhaustion; every
terminating Go run shrinks `rest` each iteration, so the supplied fuel
(length + 1) covers it. -/
def pathLoop : Nat → List Char → List Step → Option (List Step)
  | 0, _, _ => none
  | _ + 1, [], acc => some acc
  | f + 1, rest, acc =>
    let (name, rest2, idx) := scanDotted rest
    pathLoop f rest2 (acc ++ [Step.sfield name.asString] ++ idx)

/-- utils.go compilePath: empty path is the zero-step accessor; a leading
`$` makes the first segment a localStep; remaining dotted segments become
fieldSteps with their bracket steps. `none` models the nonterminating runs
(see pathLoop). -/
def compilePath (path0 : List Char) : Option (List Step) :=
  let path := fastTrimL path0
  match path with
  | [] => some []
  | '$' :: pTail =>
    let (name, rest, idx) := scanDotted pTail
    pathLoop (rest.length + 1) rest ([Step.slocal name.asString] ++ idx)
  | _ =>
    let (name, rest, idx) := scanDotted path
    pathLoop (rest.length + 1) rest ([Step.sfield name.asString] ++ idx)

/-- One pipe segment's name/args split (`name` or `name:arg1:arg2`). -/
def pushPipe (ps : List Char) (acc : List Pipe) : List Pipe :=
  match findSub ps [':'] with
  | none => acc ++ [⟨ps.asString, []⟩]
  | some ci =>
    let name := fastTrimL (ps.take ci)
    let argsStr := fastTrimL (ps.drop (ci + 1))
    let args := if argsStr.isEmpty then []
                else (splitOnCh ':' argsStr).map (fun p => (fastTrimL (unquoteL p)).asString)
    acc ++ [⟨name.asString, args⟩]

/-- The pipe-splitting loop of utils.go compileAccessor: split the tail on
`|`, skipping empty segments (a trailing `|` is a no-op). Each iteration
consumes at least one char, so fuel = length + 1 suffices. -/
def pipeLoop : Nat → List Char → List Pipe → List Pipe
  | 0, _, acc => acc
  | f + 1, s0, acc =>
    let s := fastTrimL s0
    if s.isEmpty then acc
    else
      match findSub s ['|'] with
      | none => pushPipe s acc
      | some i =>
        let pipeStr := fastTrimL (s.take i)
        let rest := s.drop (i + 1)
        if pipeStr.isEmpty then pipeLoop f rest acc
        else pipeLoop f rest (pushPipe pipeStr acc)

/-- utils.go compileAccessor: split the expression at the first `|` into a
path and a pipe tail. Returns `none` exactly when compilePath does. -/
def compileAccessor (expr0 : List Char) : Option (List Step × List Pipe) :=
  let expr := fastTrimL expr0
  if expr.isEmpty then some ([], [])
  else
    match findSub expr ['|'] with
    | none => (compilePath expr).map (fun st => (st, []))
    | some pipeIdx =>
      let path := fastTrimL (expr.take pipeIdx)
      match compilePath path with
      | none => none
      | some acc => some (acc, pipeLoop (expr.length + 1) (expr.drop (pipeIdx + 1)) [])

/-- The sequence() helper: a single node stands alone, otherwise a seqNode
(also of an empty list, as for an if with no else branch). -/
def sequenceN : List Node → Node
  | [n] => n
  | ns => .seqNode ns

/-- Error text for the fuel bound of the parse loops. The Go loops always
advance (every tag consumes both delimiters), so with fuel at least the
source length no terminating behaviour is cut off; the accessor-divergence
message stands where Go's compilePath would loop forever. -/
def fuelMsg : String := "parser fuel exhausted"

def accDivergeMsg : String := "accessor compilation does not terminate"

def untermTagMsg : String := "unterminated tag"

def untermBlockMsg : String := "unterminated block (missing \x7b\x7b end \x7d\x7d)"

def untermIfMsg : String := "unterminated if (missing \x7b\x7b end \x7d\x7d)"

def untermIfBlockMsg : String := "unterminated if block (missing \x7b\x7b end \x7d\x7d)"

mutual
/-- parser.go parser.parse: scan for the next `{{`; preceding text becomes a
textNode; a missing `}}` fails the whole parse; the trimmed tag content is
dispatched by parseTag; nil nodes (empty tags) are skipped. -/
def parse : Nat → List Char → Except String (List Node)
  | 0, _ => .error fuelMsg
  | f + 1, rest =>
    if rest.isEmpty then .ok []
    else
      match findSub rest LD with
      | none => .ok [Node.textNode rest.asString]
      | some start =>
        let pre := rest.take start
        let afterL := rest.drop (start + 2)
        match findSub afterL RD with
        | none => .error untermTagMsg
        | some e =>
          let tag := fastTrimL (afterL.take e)
          let rest2 := afterL.drop (e + 2)
          match parseTag f tag rest2 with
          | .error er => .error er
          | .ok (nOpt, rest3) =>
            match parse f rest3 with
            | .error er => .error er
            | .ok ns =>
              let ns2 := match nOpt with
                         | some n => n :: ns
                         | none => ns
              .ok (if start > 0 then Node.textNode pre.asString :: ns2 else ns2)

/-- parser.go parser.parseTag: dispatch on the first whitespace-delimited
keyword; block keywords consume their body from the remaining input.
Pipes are kept only for print tags (if/range/let discard them, as in the
source `acc, _, err :=` patterns). -/
def parseTag : Nat → List Char → List Char → Except String (Option Node × List Char)
  | 0, _, _ => .error fuelMsg
  | f + 1, tag, rest =>
    match splitFields tag with
    | [] => .ok (none, rest)
    | f0 :: fs1 =>
      if f0 = "raw".toList then
        match compileAccessor (fastTrimL (stripLead tag "raw".toList)) with
        | none => .error accDivergeMsg
        | some (acc, pipes) => .ok (some (.printNode acc true pipes), rest)
      else if f0 = "if".toList then
        match compileAccessor (fastTrimL (stripLead tag "if".toList)) with
        | none => .error accDivergeMsg
        | some (cond, _) =>
          match parseUntilElseOrEnd f rest with
          | .error er => .error er
          | .ok ((thenNs, elseNs), rest2) =>
            .ok (some (.ifNode cond (sequenceN thenNs) (some (sequenceN elseNs))), rest2)
      else if f0 = "range".toList then
        let r0 := fastTrimL (stripLead tag "range".toList)
        match findSub r0 " in ".toList with
        | none => .error "range syntax: range item in path"
        | some inIdx =>
          let item := fastTrimL (r0.take inIdx)
          let pathExpr := fastTrimL (r0.drop (inIdx + 4))
          match compileAccessor pathExpr with
          | none => .error accDivergeMsg
          | some (acc, _) =>
            match parseUntilEnd f rest with
            | .error er => .error er
            | .ok (bodyNs, rest2) =>
              .ok (some (.rangeNode acc item.asString (sequenceN bodyNs)), rest2)
      else if f0 = "let".toList then
        let r0 := fastTrimL (stripLead tag "let".toList)
        match findSub r0 ['='] with
        | none => .error "let syntax: let name = path"
        | some eq =>
          let name := fastTrimL (r0.take eq)
          match compileAccessor (fastTrimL (r0.drop (eq + 1))) with
          | none => .error accDivergeMsg
          | some (acc, _) => .ok (some (.letNode name.asString acc), rest)
      else if f0 = "with".toList then
        match compileAccessor (fastTrimL (stripLead tag "with".toList)) with
        | none => .error accDivergeMsg
        | some (acc, _) =>
          match parseUntilEnd f rest with
          | .error er => .error er
          | .ok (bodyNs, rest2) =>
            .ok (some (.withNode acc (sequenceN bodyNs)), rest2)
      else if f0 = "include".toList then
        match fs1 with
        | [] => .error "include syntax: include \"name\""
        | f1 :: _ => .ok (some (.includeNode (unquoteL f1).asString), rest)
      else
        match compileAccessor tag with
        | none => .error accDivergeMsg
        | some (acc, pipes) => .ok (some (.printNode acc false pipes), rest)

/-- parser.go parser.parseUntilEnd: same scan as parse, returning at a tag
that trims to `end`; reaching the end of input first is an unterminated
block. (Go appends even a nil node from an empty tag here and would panic
rendering it; the model skips nil nodes — no claim involves empty tags.) -/
def parseUntilEnd : Nat → List Char → Except String (List Node × List Char)
  | 0, _ => .error fuelMsg
  | f + 1, rest =>
    if rest.isEmpty then .error untermBlockMsg
    else
      match findSub rest LD with
      | none => .error untermBlockMsg
      | some start =>
        let pre := rest.take start
        let afterL := rest.drop (start + 2)
        match findSub afterL RD with
        | none => .error untermTagMsg
        | some e =>
          let tag := fastTrimL (afterL.take e)
          let rest2 := afterL.drop (e + 2)
          if tag = "end".toList then
            .ok ((if start > 0 then [Node.textNode pre.asString] else []), rest2)
          else
            match parseTag f tag rest2 with
            | .error er => .error er
            | .ok (nOpt, rest3) =>
              match parseUntilEnd f rest3 with
              | .error er => .error er
              | .ok (ns, rest4) =>
                let ns2 := match nOpt with
                           | some n => n :: ns
                           | none => ns
                .ok ((if start > 0 then Node.textNode pre.asString :: ns2 else ns2), rest4)

/-- parser.go parser.parseUntilElseOrEnd: like parseUntilEnd but an `else`
tag hands the remainder to parseUntilEnd for the else branch. -/
def parseUntilElseOrEnd : Nat → List Char → Except String ((List Node × List Node) × List Char)
  | 0, _ => .error fuelMsg
  | f + 1, rest =>
    if rest.isEmpty then .error untermIfBlockMsg
    else
      match findSub rest LD with
      | none => .error untermIfMsg
      | some start =>
        let pre := rest.take start
        let afterL := rest.drop (start + 2)
        match findSub afterL RD with
        | none => .error untermTagMsg
        | some e =>
          let tag := fastTrimL (afterL.take e)
          let rest2 := afterL.drop (e + 2)
          if tag = "end".toList then
            .ok (((if start > 0 then [Node.textNode pre.asString] else []), []), rest2)
          else if tag = "else".toList then
            match parseUntilEnd f rest2 with
            | .error er => .error er
            | .ok (elseNs, rest3) =>
              .ok (((if start > 0 then [Node.textNode pre.asString] else []), elseNs), rest3)
          else
            match parseTag f tag rest2 with
            | .error er => .error er
            | .ok (nOpt, rest3) =>
              match parseUntilElseOrEnd f rest3 with
              | .error er => .error er
              | .ok ((thenNs, elseNs), rest4) =>
                let ns2 := match nOpt with
                           | some n => n :: thenNs
                           | none => thenNs
                .ok (((if start > 0 then Node.textNode pre.asString :: ns2 else ns2), elseNs), rest4)
end

/-- Compile: run the parser and wrap the node list with sequence(). The
remaining Template fields (empty partial map, default filters, fresh field
cache) are supplied at render time in the model (renderTemplate). On any
parse error no template is produced. -/
def compileModel (fuel : Nat) (src : String) : Except String Node :=
  match parse fuel src.toList with
  | .error e => .error e
  | .ok ns => .ok (sequenceN ns)

/-! ### Helper lemmas about the local-binding map and the render loops -/

theorem lget_restoreL (ls : List (String × Val)) (k : String) (orig : Option Val) :
    lget (restoreL ls k orig) k = orig := by
  cases orig with
  | some v => exact lget_linsert_self ls k v
  | none => exact lget_lerase_self ls k

/-- If the range-loop error branch fires, the loop variable's binding comes
out restored. -/
theorem rangeStepFin_inv (item : String) (orig : Option Val) (r1 : RRes) :
    (rangeStepFin item orig r1).err.isSome →
      lget (rangeStepFin item orig r1).ctx.locals item = orig := by
  unfold rangeStepFin
  rcases hy : r1.err with _ | er
  · simp only [hy]
    intro hs
    simp at hs
  · simp only [hy]
    intro _
    exact lget_restoreL _ _ _

/-- Once an element of the range loop errored, later elements are skipped. -/
theorem rangeFold_skip (g : Ctx → String → RRes) (item : String) (orig : Option Val)
    (l : List Val) (acc : RRes) (h : acc.err.isSome) :
    l.foldl (rangeStepFn g item orig) acc = acc := by
  induction l with
  | nil => rfl
  | cons e t ih =>
    have hstep : rangeStepFn g item orig acc e = acc := by
      unfold rangeStepFn
      rcases hx : acc.err with _ | er
      · rw [hx] at h; cases h
      · simp only [hx]
    rw [List.foldl_cons, hstep, ih]

/-- Invariant of the range loop: whenever the accumulated result carries an
error, the loop variable's binding has already been restored. -/
theorem rangeFold_inv (g : Ctx → String → RRes) (item : String) (orig : Option Val)
    (l : List Val) (acc : RRes)
    (h : acc.err.isSome → lget acc.ctx.locals item = orig) :
    (l.foldl (rangeStepFn g item orig) acc).err.isSome →
      lget ((l.foldl (rangeStepFn g item orig) acc).ctx.locals) item = orig := by
  induction l generalizing acc with
  | nil => exact h
  | cons e t ih =>
    rw [List.foldl_cons]
    apply ih
    intro hs
    unfold rangeStepFn at hs ⊢
    rcases hx : acc.err with _ | er
    · simp only [hx] at hs ⊢
      exact rangeStepFin_inv _ _ _ hs
    · simp only [hx] at hs ⊢
      exact h (by rw [hx]; rfl)

/-- Once a child of a sequence errored, later children are skipped. -/
theorem seqFold_skip (g : Node → Ctx → String → RRes)
    (l : List Node) (acc : RRes) (h : acc.err.isSome) :
    l.foldl (seqStepFn g) acc = acc := by
  induction l with
  | nil => rfl
  | cons c t ih =>
    have hstep : seqStepFn g acc c = acc := by
      unfold seqStepFn
      match hx : acc.err with
      | some _ => rfl
      | none => rw [hx] at h; cases h
    rw [List.foldl_cons, hstep, ih]

/-- A character outside the escape set is passed through unchanged. -/
theorem escChar_plain (c : Char) (h : isEscCh c = false) : escChar c = [c] := by
  simp only [isEscCh, Bool.or_eq_false_iff, beq_eq_false_iff_ne, ne_eq] at h
  obtain ⟨⟨⟨⟨h1, h2⟩, h3⟩, h4⟩, h5⟩ := h
  simp [escChar, h1, h2, h3, h4, h5]

/-- Escaping a string with no escapable character is the identity, so the
quick needs-escaping scan agrees with the per-character rewrite. -/
theorem escFlatten_plain (l : List Char) (h : ∀ c ∈ l, isEscCh c = false) :
    (l.map escChar).flatten = l := by
  induction l with
  | nil => rfl
  | cons c t ih =>
    simp only [List.map_cons, List.flatten_cons]
    rw [escChar_plain c (h c (List.mem_cons_self c t)),
        ih (fun x hx => h x (List.mem_cons_of_mem c hx))]
    rfl

theorem asString_toList (s : String) : s.toList.asString = s := by
  cases s
  rfl

/-! ### Claim theorems -/

/-- Claim C1 (counterexample): the claim states that a non-absent empty
sequence makes an If node render the else-branch. On the code, with data
`{x: []}` the condition `x` resolves to the empty (non-nil) list, truthyFast
falls back to `!reflect.IsZero` which is true for any non-nil slice, and the
If node renders the THEN branch: the output is "T", not the else-branch's
"E". -/
theorem C1_counterexample :
    (render 2 (.ifNode [.sfield "x"] (.textNode "T") (some (.textNode "E")))
        ⟨.vmap [("x", .vlist [])], [], [], []⟩ "").out = "T"
    ∧ "T" ≠ "E" :=
  ⟨rfl, by decide⟩

/-- Claim C1 (amended): for every If node and every data value the condition
is tested with truthyFast; absent (failed resolution yields nil), null,
false, the empty string and a zero number are falsy, while a non-absent
sequence or map — even an empty one — is truthy (the reflection fallback
only treats a type's zero value, i.e. a nil slice/map, as falsy); the
then-branch renders exactly when the condition is truthy, otherwise the
else-branch (a no-op when omitted). -/
theorem C1_if_truthiness :
    (∀ (n : Nat) (cond : List Step) (t : Node) (e : Option Node) (ctx : Ctx) (out : String),
      render (n + 1) (.ifNode cond t e) ctx out =
        if truthyFast ((accGet cond ctx).getD .vnull) then render n t ctx out
        else
          match e with
          | some en => render n en ctx out
          | none => ⟨ctx, out, none⟩)
    ∧ truthyFast .vnull = false
    ∧ (∀ b, truthyFast (.vbool b) = b)
    ∧ (∀ s, truthyFast (.vstr s) = (s != ""))
    ∧ (∀ k : Int, truthyFast (.vint k) = (k != 0))
    ∧ (∀ xs, truthyFast (.vlist xs) = true)
    ∧ (∀ m, truthyFast (.vmap m) = true) :=
  ⟨fun _ _ _ _ _ _ => rfl, rfl, fun _ => rfl, fun _ => rfl, fun _ => rfl,
   fun _ => rfl, fun _ => rfl⟩

/-- Claim C2: a failed accessor step — missing field or key, out-of-range or
negative index, or a step applied to a value of the wrong kind — is absence,
not an error: resolution yields none, a Print node of an absent value
returns no error and writes nothing, and an If node with an absent condition
takes the else-branch. -/
theorem C2_resolution_failures_absent :
    (∀ (i : Int) (xs : List Val), (i < 0 ∨ (xs.length : Int) ≤ i) →
      indexNext i (.vlist xs) = none)
    ∧ (∀ k m, lget m k = none → fieldNext k (.vmap m) = none)
    ∧ (∀ nm s, fieldNext nm (.vstr s) = none)
    ∧ (∀ nm k, fieldNext nm (.vint k) = none)
    ∧ (∀ i m, indexNext i (.vmap m) = none)
    ∧ (∀ i s, indexNext i (.vstr s) = none)
    ∧ (∀ k xs, keyNext k (.vlist xs) = none)
    ∧ (∀ k s, keyNext k (.vstr s) = none)
    ∧ (∀ fuel acc raw pipes ctx out, accGet acc ctx = none →
        render (fuel + 1) (.printNode acc raw pipes) ctx out = ⟨ctx, out, none⟩)
    ∧ (∀ fuel acc t e ctx out, accGet acc ctx = none →
        render (fuel + 1) (.ifNode acc t (some e)) ctx out = render fuel e ctx out) := by
  refine ⟨?_, ?_, ?_, ?_, ?_, ?_, ?_, ?_, ?_, ?_⟩
  · intro i xs h
    have hb : (decide (i < 0) || decide ((xs.length : Int) ≤ i)) = true := by
      rcases h with h | h <;> simp [h]
    simp only [indexNext, ge_iff_le, hb, if_true]
  · intro k m h
    simp [fieldNext, h]
  · intro nm s; rfl
  · intro nm k; rfl
  · intro i m; rfl
  · intro i s; rfl
  · intro k xs; rfl
  · intro k s; rfl
  · intro fuel acc raw pipes ctx out h
    simp only [render, h]
  · intro fuel acc t e ctx out h
    simp only [render, h]
    rfl

/-- Claim C2 witness: the general statements evaluated at concrete inputs —
index 5 into a one-element list is absent, a print of the missing field `x`
writes nothing and returns no error, and an if on the missing field takes
the else branch. -/
theorem C2_witness :
    indexNext 5 (.vlist [.vstr "a"]) = none
    ∧ render 1 (.printNode [.sfield "x"] false []) ⟨.vmap [], [], [], []⟩ "Z"
        = ⟨⟨.vmap [], [], [], []⟩, "Z", none⟩
    ∧ render 1 (.ifNode [.sfield "x"] (.textNode "T") (some (.textNode "E")))
        ⟨.vmap [], [], [], []⟩ ""
        = render 0 (.textNode "E") ⟨.vmap [], [], [], []⟩ "" :=
  ⟨C2_resolution_failures_absent.1 5 [.vstr "a"] (Or.inr (by norm_num)),
   C2_resolution_failures_absent.2.2.2.2.2.2.2.2.1 0 [.sfield "x"] false [] _ "Z" rfl,
   C2_resolution_failures_absent.2.2.2.2.2.2.2.2.2 0 [.sfield "x"] _ _ _ "" rfl⟩

/-- Claim C4: after a Range node's render returns — having completed all
iterations, stopped at a body error, or iterated zero times — the loop
variable's local binding is exactly as before the loop: the prior value if
it was bound, absent if it was unbound. -/
theorem C4_range_restores_loop_binding (fuel : Nat) (it : List Step) (item : String)
    (body : Node) (ctx : Ctx) (out : String) :
    lget ((render fuel (.rangeNode it item body) ctx out).ctx.locals) item
      = lget ctx.locals item := by
  cases fuel with
  | zero => rfl
  | succ n =>
    simp only [render]
    rcases hr : ((iterElems (accGet it ctx)).foldl
        (rangeStepFn (render n body) item (lget ctx.locals item))
        ⟨ctx, out, none⟩).err with _ | er
    · simp only [hr, lget_restoreL]
    · simp only [hr]
      exact rangeFold_inv _ _ _ _ _ (by intro hs; simp at hs) (by rw [hr]; rfl)

/-- Claim C6: a With node whose accessor is absent renders nothing and
returns no error; otherwise the body renders with the data scope replaced by
the resolved value; and in every case — absent, success or body error — the
ambient data scope after the With node equals the data scope before it. -/
theorem C6_with_swaps_and_restores_data :
    (∀ fuel acc body ctx out,
      (render fuel (.withNode acc body) ctx out).ctx.data = ctx.data)
    ∧ (∀ fuel acc body ctx out, accGet acc ctx = none →
        render (fuel + 1) (.withNode acc body) ctx out = ⟨ctx, out, none⟩)
    ∧ (∀ fuel acc body ctx out v, accGet acc ctx = some v →
        render (fuel + 1) (.withNode acc body) ctx out =
          ⟨⟨ctx.data,
            (render fuel body ⟨v, ctx.locals, ctx.parts, ctx.filters⟩ out).ctx.locals,
            (render fuel body ⟨v, ctx.locals, ctx.parts, ctx.filters⟩ out).ctx.parts,
            (render fuel body ⟨v, ctx.locals, ctx.parts, ctx.filters⟩ out).ctx.filters⟩,
           (render fuel body ⟨v, ctx.locals, ctx.parts, ctx.filters⟩ out).out,
           (render fuel body ⟨v, ctx.locals, ctx.parts, ctx.filters⟩ out).err⟩) := by
  refine ⟨?_, ?_, ?_⟩
  · intro fuel acc body ctx out
    cases fuel with
    | zero => rfl
    | succ n =>
      simp only [render]
      rcases h : accGet acc ctx with _ | v <;> simp only [h]
  · intro fuel acc body ctx out h
    simp only [render, h]
  · intro fuel acc body ctx out v h
    simp only [render, h]

/-- Claim C6 witness: the absent and present cases evaluated concretely —
with a missing accessor nothing renders, and with `u` present the body sees
`u`'s value as the data scope and the outer data scope is restored after. -/
theorem C6_witness :
    render 1 (.withNode [.sfield "m"] (.textNode "B")) ⟨.vmap [], [], [], []⟩ ""
      = ⟨⟨.vmap [], [], [], []⟩, "", none⟩
    ∧ render 1 (.withNode [.sfield "u"] (.textNode "B"))
        ⟨.vmap [("u", .vstr "X")], [], [], []⟩ ""
      = ⟨⟨.vmap [("u", .vstr "X")],
          (render 0 (.textNode "B") ⟨.vstr "X", [], [], []⟩ "").ctx.locals,
          (render 0 (.textNode "B") ⟨.vstr "X", [], [], []⟩ "").ctx.parts,
          (render 0 (.textNode "B") ⟨.vstr "X", [], [], []⟩ "").ctx.filters⟩,
         (render 0 (.textNode "B") ⟨.vstr "X", [], [], []⟩ "").out,
         (render 0 (.textNode "B") ⟨.vstr "X", [], [], []⟩ "").err⟩ :=
  ⟨C6_with_swaps_and_restores_data.2.1 0 _ _ _ _ rfl,
   C6_with_swaps_and_restores_data.2.2 0 _ _ _ _ _ rfl⟩

/-- Claim C7: an Include node whose name is missing from the owning
template's partial map fails with a partial-not-found error; a registered
partial's root renders with the current execution context unchanged, so the
current data scope and local bindings are visible inside the partial. -/
theorem C7_include_lookup_and_context :
    (∀ fuel name ctx out, lookupP ctx.parts name = none →
      render (fuel + 1) (.includeNode name) ctx out
        = ⟨ctx, out, some (.partNotFound name)⟩)
    ∧ (∀ fuel name root ctx out, lookupP ctx.parts name = some root →
      render (fuel + 1) (.includeNode name) ctx out = render fuel root ctx out) := by
  refine ⟨?_, ?_⟩
  · intro fuel name ctx out h
    simp only [render, h]
  · intro fuel name root ctx out h
    simp only [render, h]

/-- Claim C7 witness: `include "ghost"` with no registered partial fails
with partial-not-found; a registered partial `p` renders its root with the
very same context (data and locals included). -/
theorem C7_witness :
    render 1 (.includeNode "ghost") ⟨.vnull, [], [], []⟩ ""
      = ⟨⟨.vnull, [], [], []⟩, "", some (.partNotFound "ghost")⟩
    ∧ render 1 (.includeNode "p")
        ⟨.vstr "d", [("l", .vint 7)], [("p", .textNode "P")], []⟩ "Z"
      = render 0 (.textNode "P")
          ⟨.vstr "d", [("l", .vint 7)], [("p", .textNode "P")], []⟩ "Z" :=
  ⟨C7_include_lookup_and_context.1 0 "ghost" _ "" rfl,
   C7_include_lookup_and_context.2 0 "p" _ _ "Z" rfl⟩

/-- Claim C10: a With node's exit restores only the ambient data scope: the
local-binding map after the With render is exactly the one the body's render
produced (or unchanged when the accessor was absent), so bindings the body
created or overwrote survive the With node; concretely a `let y = a` inside
a with-block is still bound afterwards. -/
theorem C10_with_preserves_locals :
    (∀ (n : Nat) (acc : List Step) (body : Node) (ctx : Ctx) (out : String),
      (render (n + 1) (.withNode acc body) ctx out).ctx.locals =
        match accGet acc ctx with
        | none => ctx.locals
        | some v => (render n body ⟨v, ctx.locals, ctx.parts, ctx.filters⟩ out).ctx.locals)
    ∧ lget ((render 2 (.withNode [] (.letNode "y" [.sfield "a"]))
          ⟨.vmap [("a", .vstr "1")], [], [], []⟩ "").ctx.locals) "y" = some (.vstr "1") := by
  refine ⟨?_, ?_⟩
  · intro n acc body ctx out
    simp only [render]
    rcases h : accGet acc ctx with _ | v <;> simp only [h]
  · rfl

/-- Claim C5 (counterexample): the claim states that a field name differing
from an existing key only in letter case still resolves against a concrete
map value. On the code, fieldStep's map[string]any path is the exact lookup
`m[s.name]` with no case-insensitive fallback: with map `{Name: "v"}` the
field `name` resolves to absent although the key matches case-insensitively
and differs from the field name. -/
theorem C5_counterexample :
    fieldNext "name" (.vmap [("Name", .vstr "v")]) = none
    ∧ eqFold "Name" "name" = true
    ∧ ("Name" : String) ≠ "name" :=
  ⟨rfl, by decide, by decide⟩

/-- Claim C5 (amended): the case-insensitive fallback applies only to record
(struct) values — there FieldByNameFunc matches exact or case-insensitive
names together, resolving when exactly one field matches and failing when
several do — while map values are looked up by the exact key only, so a
case-differing map key yields absent. -/
theorem C5_fold_only_for_records :
    (∀ m name, fieldNext name (.vmap m) = lget m name)
    ∧ (∀ (key : String) (v : Val) (name : String), eqFold key name = true →
        fieldNext name (.vrec [(key, v)]) = some v)
    ∧ fieldNext "Name" (.vrec [("Name", .vstr "a"), ("NAME", .vstr "b")]) = none := by
  refine ⟨?_, ?_, ?_⟩
  · intro m name; rfl
  · intro key v name h
    simp [fieldNext, recField, h]
  · rfl

/-- Claim C5 witness: a single-field record whose field name differs from
the accessed name only in case resolves to that field's value. -/
theorem C5_witness :
    fieldNext "name" (.vrec [("NAME", .vstr "v")]) = some (.vstr "v") :=
  C5_fold_only_for_records.2.1 "NAME" (.vstr "v") "name" rfl

/-- Claim C8: a Print node without the raw flag writes the stringified and
filtered result HTML-escaped, where escaping rewrites exactly the five
bytes & < > " ' (to &amp; &lt; &gt; &quot; &#39;) and leaves every other
character — and hence any string with none of those bytes — unchanged; with
the raw flag the same result is written unescaped. Concretely,
`{{ user.name }}` with name `<b>` writes `&lt;b&gt;` and
`{{ raw user.name }}` writes `<b>`. -/
theorem C8_print_escaping :
    (∀ s, htmlEscapeFast s = ((s.toList.map escChar).flatten).asString)
    ∧ escChar '&' = "&amp;".toList
    ∧ escChar '<' = "&lt;".toList
    ∧ escChar '>' = "&gt;".toList
    ∧ escChar '"' = "&quot;".toList
    ∧ escChar (Char.ofNat 39) = "&#39;".toList
    ∧ (∀ c, isEscCh c = false → escChar c = [c])
    ∧ (∀ s, (∀ c ∈ s.toList, isEscCh c = false) → htmlEscapeFast s = s)
    ∧ (∀ fuel acc pipes ctx out (v : Val) (s2 : String), accGet acc ctx = some v →
        applyPipes ctx.filters (toStringFast v) pipes = .ok s2 →
        render (fuel + 1) (.printNode acc true pipes) ctx out = ⟨ctx, out ++ s2, none⟩
        ∧ render (fuel + 1) (.printNode acc false pipes) ctx out
            = ⟨ctx, out ++ htmlEscapeFast s2, none⟩)
    ∧ compileModel 40 "\x7b\x7b user.name \x7d\x7d"
        = .ok (.printNode [.sfield "user", .sfield "name"] false [])
    ∧ renderTemplate 1 (.printNode [.sfield "user", .sfield "name"] false []) [] []
        (.vmap [("user", .vmap [("name", .vstr "<b>")])]) = ("&lt;b&gt;", none)
    ∧ compileModel 40 "\x7b\x7b raw user.name \x7d\x7d"
        = .ok (.printNode [.sfield "user", .sfield "name"] true [])
    ∧ renderTemplate 1 (.printNode [.sfield "user", .sfield "name"] true []) [] []
        (.vmap [("user", .vmap [("name", .vstr "<b>")])]) = ("<b>", none) := by
  refine ⟨?_, rfl, rfl, rfl, rfl, rfl, escChar_plain, ?_, ?_, ?_, ?_, ?_, ?_⟩
  · intro s
    unfold htmlEscapeFast
    cases hx : s.toList.any isEscCh with
    | false =>
      have hplain : ∀ c ∈ s.toList, isEscCh c = false := by
        intro c hc
        have := List.any_eq_false.mp hx c hc
        simpa using this
      rw [escFlatten_plain s.toList hplain, asString_toList]
      simp [hx]
    | true => simp only [hx, if_true]
  · intro s h
    have hx : s.toList.any isEscCh = false :=
      List.any_eq_false.mpr (fun c hc => by rw [h c hc]; exact Bool.false_ne_true)
    unfold htmlEscapeFast
    rw [hx]
    simp only [Bool.false_eq_true, if_false]
  · intro fuel acc pipes ctx out v s2 h1 h2
    constructor
    · simp only [render, h1, h2, if_true]
    · simp [render, h1, h2]
  · rfl
  · rfl
  · rfl
  · rfl

/-- Claim C8 witness: the raw/escaped print statement evaluated at the
concrete value `<b>` with no pipes. -/
theorem C8_witness :
    render 1 (.printNode [.sfield "n"] true []) ⟨.vmap [("n", .vstr "<b>")], [], [], []⟩ ""
      = ⟨⟨.vmap [("n", .vstr "<b>")], [], [], []⟩, "" ++ "<b>", none⟩
    ∧ render 1 (.printNode [.sfield "n"] false []) ⟨.vmap [("n", .vstr "<b>")], [], [], []⟩ ""
      = ⟨⟨.vmap [("n", .vstr "<b>")], [], [], []⟩, "" ++ htmlEscapeFast "<b>", none⟩ :=
  C8_print_escaping.2.2.2.2.2.2.2.2.1 0 [.sfield "n"] [] _ "" (.vstr "<b>") "<b>" rfl rfl

/-- Claim C3: the template `A{{ x | nope }}B` compiles to the sequence
[text A, print x|nope, text B]; rendering it with any registry lacking a
filter named `nope` and any data for which `x` resolves returns the
unknown-filter error, with exactly the literal `A` written to the sink and
`B` never written; and in general a sequence stops at the first child whose
render errors, propagating that child's result unchanged. -/
theorem C3_unknown_filter_stops_sequence :
    compileModel 40 "A\x7b\x7b x | nope \x7d\x7dB"
      = .ok (.seqNode [.textNode "A",
                       .printNode [.sfield "x"] false [⟨"nope", []⟩],
                       .textNode "B"])
    ∧ (∀ fuel parts filters (data v : Val), fieldNext "x" data = some v →
        lookupF filters "nope" = none →
        renderTemplate (fuel + 2)
          (.seqNode [.textNode "A",
                     .printNode [.sfield "x"] false [⟨"nope", []⟩],
                     .textNode "B"])
          parts filters data
          = ("A", some (.unknownFilter "nope")))
    ∧ (∀ fuel c cs ctx out e, (render fuel c ctx out).err = some e →
        render (fuel + 1) (.seqNode (c :: cs)) ctx out = render fuel c ctx out) := by
  refine ⟨rfl, ?_, ?_⟩
  · intro fuel parts filters data v h1 h2
    unfold renderTemplate
    simp only [render, List.foldl_cons, List.foldl_nil, seqStepFn, accGet, accGet.walk,
               stepNext, h1, applyPipes, h2, toStringFast]
    rfl
  · intro fuel c cs ctx out e h
    simp only [render, List.foldl_cons]
    have hstep : seqStepFn (render fuel) ⟨ctx, out, none⟩ c = render fuel c ctx out := rfl
    rw [hstep]
    exact seqFold_skip _ _ _ (by rw [h]; rfl)

/-- Claim C3 witness: the sequence for `A{{ x | nope }}B` rendered with an
empty filter registry and data `{x: "hello"}` writes exactly "A" and fails
with the unknown-filter error. -/
theorem C3_witness :
    renderTemplate 2
      (.seqNode [.textNode "A",
                 .printNode [.sfield "x"] false [⟨"nope", []⟩],
                 .textNode "B"])
      [] [] (.vmap [("x", .vstr "hello")])
      = ("A", some (.unknownFilter "nope")) :=
  C3_unknown_filter_stops_sequence.2.1 0 [] [] _ (.vstr "hello") rfl rfl

/-! ### Facts about findSub, used to reason about the tag scanner -/

theorem findSub_some_starts (pat : List Char) :
    ∀ (hay : List Char) (i : Nat), findSub hay pat = some i →
      startsWith (hay.drop i) pat = true := by
  intro hay
  induction hay with
  | nil =>
    intro i h
    rw [findSub] at h
    cases hs : startsWith [] pat with
    | true =>
      rw [if_pos hs] at h
      injection h with h2
      subst h2
      simpa using hs
    | false =>
      rw [if_neg (by simp [hs])] at h
      cases h
  | cons c t ih =>
    intro i h
    rw [findSub] at h
    cases hs : startsWith (c :: t) pat with
    | true =>
      rw [if_pos hs] at h
      injection h with h2
      subst h2
      simpa using hs
    | false =>
      rw [if_neg (by simp [hs])] at h
      rcases hm : findSub t pat with _ | j
      · rw [hm] at h; cases h
      · rw [hm] at h
        simp only [Option.map_some'] at h
        injection h with h2
        subst h2
        exact ih j hm

theorem findSub_none_starts (pat : List Char) :
    ∀ (hay : List Char), findSub hay pat = none →
      ∀ j, startsWith (hay.drop j) pat = false := by
  intro hay
  induction hay with
  | nil =>
    intro h j
    rw [findSub] at h
    cases hs : startsWith [] pat with
    | true => rw [if_pos hs] at h; cases h
    | false => simpa [List.drop_nil] using hs
  | cons c t ih =>
    intro h j
    rw [findSub] at h
    cases hs : startsWith (c :: t) pat with
    | true => rw [if_pos hs] at h; cases h
    | false =>
      rw [if_neg (by simp [hs])] at h
      rcases hm : findSub t pat with _ | k
      · cases j with
        | zero => simpa using hs
        | succ j2 => exact ih hm j2
      · rw [hm] at h; cases h

theorem startsWith_two (l : List Char) (x y : Char)
    (h : startsWith l [x, y] = true) : ∃ t, l = x :: y :: t := by
  match l with
  | [] => cases h
  | [a] => simp [startsWith] at h
  | a :: b :: t =>
    simp only [startsWith, Bool.and_eq_true, beq_iff_eq] at h
    exact ⟨t, by rw [h.1, h.2.1]⟩

/-! ### Unterminated tags and missing end tags -/

/-- An unterminated tag: somewhere in the input the left delimiter opens a
tag, and no right delimiter occurs anywhere from that point to the end of
the input. -/
def hasUnterm (rest : List Char) : Prop :=
  ∃ a u, rest = a ++ u ∧ startsWith u LD = true ∧ findSub u RD = none

theorem hasUnterm_nonempty {rest : List Char} (h : hasUnterm rest) : rest ≠ [] := by
  obtain ⟨a, u, hr, hu, _⟩ := h
  obtain ⟨t, ht⟩ := startsWith_two u _ _ hu
  intro hnil
  rw [hr] at hnil
  have := (List.append_eq_nil.mp hnil).2
  rw [ht] at this
  cases this

theorem hasUnterm_LD {rest : List Char} (h : hasUnterm rest) :
    findSub rest LD ≠ none := by
  obtain ⟨a, u, hr, hu, _⟩ := h
  intro hn
  have hfs := findSub_none_starts LD rest hn a.length
  rw [hr, List.drop_left] at hfs
  rw [hu] at hfs
  cases hfs

/-- A right-delimiter occurrence in the input ends strictly before the
unterminated tag's suffix begins. -/
theorem rd_ends_before {a u rest : List Char} {k : Nat}
    (hrest : rest = a ++ u) (hu : startsWith u LD = true)
    (hnone : findSub u RD = none)
    (hk : startsWith (rest.drop k) RD = true) :
    k + 2 ≤ a.length := by
  obtain ⟨t, ht⟩ := startsWith_two u _ _ hu
  by_cases hka : a.length ≤ k
  · exfalso
    have hks : a.length + (k - a.length) = k := Nat.add_sub_cancel' hka
    have hsplit : rest.drop k = u.drop (k - a.length) := by
      conv_lhs => rw [hrest, ← hks]
      rw [List.drop_append]
    rw [hsplit] at hk
    have := findSub_none_starts RD u hnone (k - a.length)
    rw [hk] at this
    cases this
  · by_cases hk2 : k + 2 ≤ a.length
    · exact hk2
    · exfalso
      have hk1 : k + 1 = a.length := by omega
      obtain ⟨t2, ht2⟩ := startsWith_two (rest.drop k) _ _ hk
      have hd1 : rest.drop (k + 1) = u := by
        rw [hrest, hk1, List.drop_left]
      have hd2 : rest.drop (k + 1) = (Char.ofNat 125) :: t2 := by
        rw [← List.tail_drop, ht2]
        rfl
      rw [hd1, ht] at hd2
      have : Char.ofNat 123 = Char.ofNat 125 := by
        injection hd2
      cases this

/-- Consuming one scanned tag (everything through the first right delimiter
after position s+2) keeps the unterminated tag ahead of the scanner. -/
theorem hasUnterm_drop {rest : List Char} (h : hasUnterm rest) (s e : Nat)
    (hRD : findSub (rest.drop (s + 2)) RD = some e) :
    hasUnterm ((rest.drop (s + 2)).drop (e + 2)) := by
  obtain ⟨a, u, hr, hu, hn⟩ := h
  have hst : startsWith ((rest.drop (s + 2)).drop e) RD = true :=
    findSub_some_starts RD _ e hRD
  rw [List.drop_drop] at hst
  have hle : (s + 2 + e) + 2 ≤ a.length :=
    rd_ends_before hr hu hn hst
  refine ⟨a.drop (s + 2 + (e + 2)), u, ?_, hu, hn⟩
  rw [List.drop_drop, hr, List.drop_append_of_le_length (by omega)]

/-- No end tag: no occurrence of the left delimiter is followed (up to the
first right delimiter after it) by tag content trimming to `end`. This is
closed under dropping a prefix of the input. -/
def noEnd (rest : List Char) : Prop :=
  ∀ j e, startsWith (rest.drop j) LD = true →
    findSub (rest.drop (j + 2)) RD = some e →
    fastTrimL ((rest.drop (j + 2)).take e) ≠ "end".toList

theorem noEnd_drop {rest : List Char} (h : noEnd rest) (k : Nat) :
    noEnd (rest.drop k) := by
  intro j e h1 h2
  rw [List.drop_drop] at h1 h2 ⊢
  have h3 : k + (j + 2) = (k + j) + 2 := by omega
  rw [h3] at h2 ⊢
  exact h (k + j) e h1 h2

/-- When no end tag can ever be scanned from the remaining input, parseTag
only succeeds on non-block tags (leaving the input unchanged), and the two
block-body parsers can never succeed: reaching the end of input inside a
block body is an error for every fuel. -/
theorem noEndCore : ∀ fuel : Nat,
    (∀ tag rest, noEnd rest → ∀ x, parseTag fuel tag rest = .ok x → noEnd x.2)
    ∧ (∀ rest, noEnd rest → ∀ x, parseUntilEnd fuel rest ≠ .ok x)
    ∧ (∀ rest, noEnd rest → ∀ x, parseUntilElseOrEnd fuel rest ≠ .ok x) := by
  intro fuel
  induction fuel with
  | zero =>
    refine ⟨?_, ?_, ?_⟩
    · intro tag rest _ x hc
      simp only [parseTag] at hc
      exact Except.noConfusion hc
    · intro rest _ x hc
      simp only [parseUntilEnd] at hc
      exact Except.noConfusion hc
    · intro rest _ x hc
      simp only [parseUntilElseOrEnd] at hc
      exact Except.noConfusion hc
  | succ f ih =>
    obtain ⟨ihTag, ihUE, ihUEE⟩ := ih
    refine ⟨?_, ?_, ?_⟩
    · -- parseTag
      intro tag rest hne x hc
      rw [parseTag] at hc
      rcases hsf : splitFields tag with _ | ⟨f0, fs1⟩ <;> simp only [hsf] at hc
      · injection hc with h2
        subst h2
        exact hne
      · by_cases h1 : f0 = "raw".toList
        · rw [if_pos h1] at hc
          rcases hca : compileAccessor (fastTrimL (stripLead tag "raw".toList))
            with _ | ⟨acc, pipes⟩ <;> simp only [hca] at hc
          · exact Except.noConfusion hc
          · injection hc with h2
            subst h2
            exact hne
        · rw [if_neg h1] at hc
          by_cases h2 : f0 = "if".toList
          · rw [if_pos h2] at hc
            rcases hca : compileAccessor (fastTrimL (stripLead tag "if".toList))
              with _ | ⟨cond, ps⟩ <;> simp only [hca] at hc
            · exact Except.noConfusion hc
            · rcases hpe : parseUntilElseOrEnd f rest with er | y
              · simp only [hpe] at hc
                exact Except.noConfusion hc
              · exact absurd hpe (ihUEE rest hne y)
          · rw [if_neg h2] at hc
            by_cases h3 : f0 = "range".toList
            · rw [if_pos h3] at hc
              rcases hin : findSub (fastTrimL (stripLead tag "range".toList)) " in ".toList
                with _ | inIdx <;> simp only [hin] at hc
              · exact Except.noConfusion hc
              · rcases hca : compileAccessor
                    (fastTrimL ((fastTrimL (stripLead tag "range".toList)).drop (inIdx + 4)))
                  with _ | ⟨acc, ps⟩ <;> simp only [hca] at hc
                · exact Except.noConfusion hc
                · rcases hpe : parseUntilEnd f rest with er | y
                  · simp only [hpe] at hc
                    exact Except.noConfusion hc
                  · exact absurd hpe (ihUE rest hne y)
            · rw [if_neg h3] at hc
              by_cases h4 : f0 = "let".toList
              · rw [if_pos h4] at hc
                rcases heq : findSub (fastTrimL (stripLead tag "let".toList)) ['=']
                  with _ | eqI <;> simp only [heq] at hc
                · exact Except.noConfusion hc
                · rcases hca : compileAccessor
                      (fastTrimL ((fastTrimL (stripLead tag "let".toList)).drop (eqI + 1)))
                    with _ | ⟨acc, ps⟩ <;> simp only [hca] at hc
                  · exact Except.noConfusion hc
                  · injection hc with h5
                    subst h5
                    exact hne
              · rw [if_neg h4] at hc
                by_cases h5 : f0 = "with".toList
                · rw [if_pos h5] at hc
                  rcases hca : compileAccessor (fastTrimL (stripLead tag "with".toList))
                    with _ | ⟨acc, ps⟩ <;> simp only [hca] at hc
                  · exact Except.noConfusion hc
                  · rcases hpe : parseUntilEnd f rest with er | y
                    · simp only [hpe] at hc
                      exact Except.noConfusion hc
                    · exact absurd hpe (ihUE rest hne y)
                · rw [if_neg h5] at hc
                  by_cases h6 : f0 = "include".toList
                  · rw [if_pos h6] at hc
                    rcases hfs : fs1 with _ | ⟨f1, fs2⟩ <;> simp only [hfs] at hc
                    · exact Except.noConfusion hc
                    · injection hc with h7
                      subst h7
                      exact hne
                  · rw [if_neg h6] at hc
                    rcases hca : compileAccessor tag with _ | ⟨acc, pipes⟩ <;> simp only [hca] at hc
                    · exact Except.noConfusion hc
                    · injection hc with h7
                      subst h7
                      exact hne
    · -- parseUntilEnd
      intro rest hne x hc
      rw [parseUntilEnd] at hc
      by_cases hre : rest.isEmpty = true
      · rw [if_pos hre] at hc
        exact Except.noConfusion hc
      · rw [if_neg hre] at hc
        rcases hLD : findSub rest LD with _ | start <;> simp only [hLD] at hc
        · exact Except.noConfusion hc
        · rcases hRD : findSub (rest.drop (start + 2)) RD with _ | e <;> simp only [hRD] at hc
          · exact Except.noConfusion hc
          · by_cases hend : fastTrimL ((rest.drop (start + 2)).take e) = "end".toList
            · exact (hne start e (findSub_some_starts LD rest start hLD) hRD) hend
            · rw [if_neg hend] at hc
              have hne2 : noEnd ((rest.drop (start + 2)).drop (e + 2)) :=
                noEnd_drop (noEnd_drop hne (start + 2)) (e + 2)
              rcases hPT : parseTag f (fastTrimL ((rest.drop (start + 2)).take e))
                  ((rest.drop (start + 2)).drop (e + 2)) with er | y
              · simp only [hPT] at hc
                exact Except.noConfusion hc
              · obtain ⟨nOpt, rest3⟩ := y
                simp only [hPT] at hc
                have hne3 : noEnd rest3 := ihTag _ _ hne2 (nOpt, rest3) hPT
                rcases hUE2 : parseUntilEnd f rest3 with er | z
                · simp only [hUE2] at hc
                  exact Except.noConfusion hc
                · exact absurd hUE2 (ihUE rest3 hne3 z)
    · -- parseUntilElseOrEnd
      intro rest hne x hc
      rw [parseUntilElseOrEnd] at hc
      by_cases hre : rest.isEmpty = true
      · rw [if_pos hre] at hc
        exact Except.noConfusion hc
      · rw [if_neg hre] at hc
        rcases hLD : findSub rest LD with _ | start <;> simp only [hLD] at hc
        · exact Except.noConfusion hc
        · rcases hRD : findSub (rest.drop (start + 2)) RD with _ | e <;> simp only [hRD] at hc
          · exact Except.noConfusion hc
          · by_cases hend : fastTrimL ((rest.drop (start + 2)).take e) = "end".toList
            · exact (hne start e (findSub_some_starts LD rest start hLD) hRD) hend
            · rw [if_neg hend] at hc
              have hne2 : noEnd ((rest.drop (start + 2)).drop (e + 2)) :=
                noEnd_drop (noEnd_drop hne (start + 2)) (e + 2)
              by_cases hels : fastTrimL ((rest.drop (start + 2)).take e) = "else".toList
              · rw [if_pos hels] at hc
                rcases hUE2 : parseUntilEnd f ((rest.drop (start + 2)).drop (e + 2))
                  with er | z
                · simp only [hUE2] at hc
                  exact Except.noConfusion hc
                · exact absurd hUE2 (ihUE _ hne2 z)
              · rw [if_neg hels] at hc
                rcases hPT : parseTag f (fastTrimL ((rest.drop (start + 2)).take e))
                    ((rest.drop (start + 2)).drop (e + 2)) with er | y
                · simp only [hPT] at hc
                  exact Except.noConfusion hc
                · obtain ⟨nOpt, rest3⟩ := y
                  simp only [hPT] at hc
                  have hne3 : noEnd rest3 := ihTag _ _ hne2 (nOpt, rest3) hPT
                  rcases hUE2 : parseUntilElseOrEnd f rest3 with er | z
                  · simp only [hUE2] at hc
                    exact Except.noConfusion hc
                  · exact absurd hUE2 (ihUEE rest3 hne3 z)

theorem hasUnterm_isEmpty {rest : List Char} (h : hasUnterm rest) :
    rest.isEmpty = false := by
  obtain ⟨a, u, hr, hu, _⟩ := h
  obtain ⟨t, ht⟩ := startsWith_two u _ _ hu
  subst ht
  rw [hr]
  cases a <;> rfl

/-- With an unterminated tag somewhere ahead, the scanner can never consume
past it (every scanned tag's closing delimiter lies before it), so parseTag
and the block parsers keep it ahead on success, and the top-level parse can
never succeed. -/
theorem untermCore : ∀ fuel : Nat,
    (∀ rest, hasUnterm rest → ∀ ns, parse fuel rest ≠ .ok ns)
    ∧ (∀ tag rest, hasUnterm rest → ∀ x, parseTag fuel tag rest = .ok x → hasUnterm x.2)
    ∧ (∀ rest, hasUnterm rest → ∀ x, parseUntilEnd fuel rest = .ok x → hasUnterm x.2)
    ∧ (∀ rest, hasUnterm rest → ∀ x, parseUntilElseOrEnd fuel rest = .ok x → hasUnterm x.2) := by
  intro fuel
  induction fuel with
  | zero =>
    refine ⟨?_, ?_, ?_, ?_⟩
    · intro rest _ ns hc
      simp only [parse] at hc
      exact Except.noConfusion hc
    · intro tag rest _ x hc
      simp only [parseTag] at hc
      exact Except.noConfusion hc
    · intro rest _ x hc
      simp only [parseUntilEnd] at hc
      exact Except.noConfusion hc
    · intro rest _ x hc
      simp only [parseUntilElseOrEnd] at hc
      exact Except.noConfusion hc
  | succ f ih =>
    obtain ⟨ihP, ihTag, ihUE, ihUEE⟩ := ih
    refine ⟨?_, ?_, ?_, ?_⟩
    · -- parse
      intro rest h ns hc
      rw [parse] at hc
      rw [if_neg (by simp [hasUnterm_isEmpty h])] at hc
      rcases hLD : findSub rest LD with _ | start
      · exact (hasUnterm_LD h) hLD
      · simp only [hLD] at hc
        rcases hRD : findSub (rest.drop (start + 2)) RD with _ | e
        · simp only [hRD] at hc
          exact Except.noConfusion hc
        · simp only [hRD] at hc
          have h2 := hasUnterm_drop h start e hRD
          rcases hPT : parseTag f (fastTrimL ((rest.drop (start + 2)).take e))
              ((rest.drop (start + 2)).drop (e + 2)) with er | y
          · simp only [hPT] at hc
            exact Except.noConfusion hc
          · obtain ⟨nOpt, rest3⟩ := y
            simp only [hPT] at hc
            have h3 : hasUnterm rest3 := ihTag _ _ h2 (nOpt, rest3) hPT
            rcases hPP : parse f rest3 with er | ns2
            · simp only [hPP] at hc
              exact Except.noConfusion hc
            · exact (ihP rest3 h3 ns2) hPP
    · -- parseTag
      intro tag rest h x hc
      rw [parseTag] at hc
      rcases hsf : splitFields tag with _ | ⟨f0, fs1⟩ <;> simp only [hsf] at hc
      · injection hc with h2
        subst h2
        exact h
      · by_cases h1 : f0 = "raw".toList
        · rw [if_pos h1] at hc
          rcases hca : compileAccessor (fastTrimL (stripLead tag "raw".toList))
            with _ | ⟨acc, pipes⟩ <;> simp only [hca] at hc
          · exact Except.noConfusion hc
          · injection hc with h2
            subst h2
            exact h
        · rw [if_neg h1] at hc
          by_cases h2 : f0 = "if".toList
          · rw [if_pos h2] at hc
            rcases hca : compileAccessor (fastTrimL (stripLead tag "if".toList))
              with _ | ⟨cond, ps⟩ <;> simp only [hca] at hc
            · exact Except.noConfusion hc
            · rcases hpe : parseUntilElseOrEnd f rest with er | y
              · simp only [hpe] at hc
                exact Except.noConfusion hc
              · obtain ⟨⟨tns, ens⟩, rest2⟩ := y
                simp only [hpe] at hc
                injection hc with h3
                subst h3
                exact ihUEE rest h ((tns, ens), rest2) hpe
          · rw [if_neg h2] at hc
            by_cases h3 : f0 = "range".toList
            · rw [if_pos h3] at hc
              rcases hin : findSub (fastTrimL (stripLead tag "range".toList)) " in ".toList
                with _ | inIdx <;> simp only [hin] at hc
              · exact Except.noConfusion hc
              · rcases hca : compileAccessor
                    (fastTrimL ((fastTrimL (stripLead tag "range".toList)).drop (inIdx + 4)))
                  with _ | ⟨acc, ps⟩ <;> simp only [hca] at hc
                · exact Except.noConfusion hc
                · rcases hpe : parseUntilEnd f rest with er | y
                  · simp only [hpe] at hc
                    exact Except.noConfusion hc
                  · obtain ⟨bodyNs, rest2⟩ := y
                    simp only [hpe] at hc
                    injection hc with h4
                    subst h4
                    exact ihUE rest h (bodyNs, rest2) hpe
            · rw [if_neg h3] at hc
              by_cases h4 : f0 = "let".toList
              · rw [if_pos h4] at hc
                rcases heq : findSub (fastTrimL (stripLead tag "let".toList)) ['=']
                  with _ | eqI <;> simp only [heq] at hc
                · exact Except.noConfusion hc
                · rcases hca : compileAccessor
                      (fastTrimL ((fastTrimL (stripLead tag "let".toList)).drop (eqI + 1)))
                    with _ | ⟨acc, ps⟩ <;> simp only [hca] at hc
                  · exact Except.noConfusion hc
                  · injection hc with h5
                    subst h5
                    exact h
              · rw [if_neg h4] at hc
                by_cases h5 : f0 = "with".toList
                · rw [if_pos h5] at hc
                  rcases hca : compileAccessor (fastTrimL (stripLead tag "with".toList))
                    with _ | ⟨acc, ps⟩ <;> simp only [hca] at hc
                  · exact Except.noConfusion hc
                  · rcases hpe : parseUntilEnd f rest with er | y
                    · simp only [hpe] at hc
                      exact Except.noConfusion hc
                    · obtain ⟨bodyNs, rest2⟩ := y
                      simp only [hpe] at hc
                      injection hc with h6
                      subst h6
                      exact ihUE rest h (bodyNs, rest2) hpe
                · rw [if_neg h5] at hc
                  by_cases h6 : f0 = "include".toList
                  · rw [if_pos h6] at hc
                    rcases hfs : fs1 with _ | ⟨f1, fs2⟩ <;> simp only [hfs] at hc
                    · exact Except.noConfusion hc
                    · injection hc with h7
                      subst h7
                      exact h
                  · rw [if_neg h6] at hc
                    rcases hca : compileAccessor tag
                      with _ | ⟨acc, pipes⟩ <;> simp only [hca] at hc
                    · exact Except.noConfusion hc
                    · injection hc with h7
                      subst h7
                      exact h
    · -- parseUntilEnd
      intro rest h x hc
      rw [parseUntilEnd] at hc
      by_cases hre : rest.isEmpty = true
      · rw [if_pos hre] at hc
        exact Except.noConfusion hc
      · rw [if_neg hre] at hc
        rcases hLD : findSub rest LD with _ | start <;> simp only [hLD] at hc
        · exact Except.noConfusion hc
        · rcases hRD : findSub (rest.drop (start + 2)) RD with _ | e <;>
            simp only [hRD] at hc
          · exact Except.noConfusion hc
          · by_cases hend : fastTrimL ((rest.drop (start + 2)).take e) = "end".toList
            · rw [if_pos hend] at hc
              injection hc with h2
              subst h2
              exact hasUnterm_drop h start e hRD
            · rw [if_neg hend] at hc
              have h2 := hasUnterm_drop h start e hRD
              rcases hPT : parseTag f (fastTrimL ((rest.drop (start + 2)).take e))
                  ((rest.drop (start + 2)).drop (e + 2)) with er | y
              · simp only [hPT] at hc
                exact Except.noConfusion hc
              · obtain ⟨nOpt, rest3⟩ := y
                simp only [hPT] at hc
                have h3 : hasUnterm rest3 := ihTag _ _ h2 (nOpt, rest3) hPT
                rcases hUE2 : parseUntilEnd f rest3 with er | z
                · simp only [hUE2] at hc
                  exact Except.noConfusion hc
                · obtain ⟨ns4, rest4⟩ := z
                  simp only [hUE2] at hc
                  injection hc with h4
                  subst h4
                  exact ihUE rest3 h3 (ns4, rest4) hUE2
    · -- parseUntilElseOrEnd
      intro rest h x hc
      rw [parseUntilElseOrEnd] at hc
      by_cases hre : rest.isEmpty = true
      · rw [if_pos hre] at hc
        exact Except.noConfusion hc
      · rw [if_neg hre] at hc
        rcases hLD : findSub rest LD with _ | start <;> simp only [hLD] at hc
        · exact Except.noConfusion hc
        · rcases hRD : findSub (rest.drop (start + 2)) RD with _ | e <;>
            simp only [hRD] at hc
          · exact Except.noConfusion hc
          · by_cases hend : fastTrimL ((rest.drop (start + 2)).take e) = "end".toList
            · rw [if_pos hend] at hc
              injection hc with h2
              subst h2
              exact hasUnterm_drop h start e hRD
            · rw [if_neg hend] at hc
              have h2 := hasUnterm_drop h start e hRD
              by_cases hels : fastTrimL ((rest.drop (start + 2)).take e) = "else".toList
              · rw [if_pos hels] at hc
                rcases hUE2 : parseUntilEnd f ((rest.drop (start + 2)).drop (e + 2))
                  with er | z
                · simp only [hUE2] at hc
                  exact Except.noConfusion hc
                · obtain ⟨ens, rest3⟩ := z
                  simp only [hUE2] at hc
                  injection hc with h4
                  subst h4
                  exact ihUE _ h2 (ens, rest3) hUE2
              · rw [if_neg hels] at hc
                rcases hPT : parseTag f (fastTrimL ((rest.drop (start + 2)).take e))
                    ((rest.drop (start + 2)).drop (e + 2)) with er | y
                · simp only [hPT] at hc
                  exact Except.noConfusion hc
                · obtain ⟨nOpt, rest3⟩ := y
                  simp only [hPT] at hc
                  have h3 : hasUnterm rest3 := ihTag _ _ h2 (nOpt, rest3) hPT
                  rcases hUE2 : parseUntilElseOrEnd f rest3 with er | z
                  · simp only [hUE2] at hc
                    exact Except.noConfusion hc
                  · obtain ⟨⟨tns4, ens4⟩, rest4⟩ := z
                    simp only [hUE2] at hc
                    injection hc with h4
                    subst h4
                    exact ihUEE rest3 h3 ((tns4, ens4), rest4) hUE2

/-- Claim C9 (counterexample): the claim says an unterminated tag fails the
compile with a positional error. The code's error is the constant string
"unterminated tag": the same error value results whether the unterminated
tag starts at offset 1 or at offset 2, so the compile error carries no
position information. -/
theorem C9_counterexample :
    compileModel 20 "a\x7b\x7bx" = .error "unterminated tag"
    ∧ compileModel 20 "ab\x7b\x7bx" = .error "unterminated tag"
    ∧ untermTagMsg = "unterminated tag" :=
  ⟨rfl, rfl, rfl⟩

/-- Claim C9 (amended): an unterminated tag (a left delimiter with no right
delimiter anywhere after it) makes the whole compile fail for every source
and every recursion bound — parse never succeeds; reaching the end of input
inside an if/range/with body before a matching end tag is likewise fatal —
when no end tag can be scanned from the remaining input, the block-body
parsers never succeed; every parse error propagates to the compile call
unchanged (the errors are fixed message strings without positions), and no
compiled template is returned, as the concrete unterminated-tag,
unterminated-if, unterminated-range and unterminated-with sources show. -/
theorem C9_unterminated_fails_compile :
    (∀ fuel rest, hasUnterm rest → ∀ ns, parse fuel rest ≠ .ok ns)
    ∧ (∀ fuel rest, noEnd rest →
        (∀ x, parseUntilEnd fuel rest ≠ .ok x)
        ∧ (∀ y, parseUntilElseOrEnd fuel rest ≠ .ok y))
    ∧ (∀ fuel src e, parse fuel src.toList = .error e → compileModel fuel src = .error e)
    ∧ compileModel 20 "A\x7b\x7b x" = .error untermTagMsg
    ∧ compileModel 30 "A\x7b\x7b if x \x7d\x7dB" = .error untermIfMsg
    ∧ compileModel 40 "A\x7b\x7b range i in xs \x7d\x7dB" = .error untermBlockMsg
    ∧ compileModel 40 "A\x7b\x7b with x \x7d\x7dB\x7b\x7b y \x7d\x7d"
        = .error untermBlockMsg := by
  refine ⟨?_, ?_, ?_, rfl, rfl, rfl, rfl⟩
  · intro fuel rest h ns
    exact (untermCore fuel).1 rest h ns
  · intro fuel rest h
    exact ⟨(noEndCore fuel).2.1 rest h, (noEndCore fuel).2.2 rest h⟩
  · intro fuel src e h
    unfold compileModel
    rw [h]

/-- Claim C9 witness: the general statements at concrete inputs — the
source `{{x` has an unterminated tag and its parse never succeeds, the
empty remaining input has no end tag so a block body can never finish, and
the parse error of `{{` is the compile call's error. -/
theorem C9_witness :
    parse 20 ("\x7b\x7bx".toList) ≠ .ok []
    ∧ parseUntilEnd 20 [] ≠ .ok ([], [])
    ∧ compileModel 5 "\x7b\x7b" = .error untermTagMsg :=
  ⟨C9_unterminated_fails_compile.1 20 _
      ⟨[], "\x7b\x7bx".toList, rfl, by decide, by decide⟩ [],
   (C9_unterminated_fails_compile.2.1 20 []
      (fun j e h1 _ => by
        rw [List.drop_nil] at h1
        exact absurd h1 (by decide))).1 ([], []),
   C9_unterminated_fails_compile.2.2.1 5 "\x7b\x7b" untermTagMsg rfl⟩

end Fasttpl
